import Mathlib

/-!
Verification development for the ms-utils repository.

The definitions below are a shallow embedding of `msutils/page.py` and
`msutils/edition.py`.  Filenames are modelled as `String`/`List Char`
over the ASCII alphabet (the Python regular expression runs with the
re.VERBOSE and re.IGNORECASE flags; its character classes are modelled
for ASCII input, which covers every filename the repository handles).
The regular expression

    ^ (?P<prefix> [A-Z]\x7b0,1\x7d ) (?P<first_page> \d+)
      (?: - (?P<second_page> \d+) )?  [-_ ]*
      (?P<section> \D+? )  [-_ ]*
      (?P<date> \d\x7b6\x7d | \d\x7b8\x7d | \d\x7b2\x7d-\d\x7b2\x7d-(?:\d\x7b2\x7d|\d\x7b4\x7d) )
      \. (?P<type> indd | pdf ) $

is embedded as a deterministic backtracking matcher that mirrors the
ordered-alternation, greedy and lazy semantics of Python's `re` engine:
greedy `\d+` runs take the maximal digit run (a shorter run leaves a
digit where only non-digits may follow, so the shorter choices can
never succeed), the optional second-page group backtracks to the
skipped alternative, the separator runs backtrack into the lazy
section, and `$` accepts either the end of the string or a single
trailing newline, exactly as Python's `$` does.
-/

namespace MsUtils

/-- Python `\d` on ASCII input: a decimal digit. -/
def isDigitC (c : Char) : Bool := '0' ≤ c && c ≤ '9'

/-- The separator class `[-_ ]` of the page-name pattern. -/
def isSepC (c : Char) : Bool := c == '-' || c == '_' || c == ' '

/-- `[A-Z]` under re.IGNORECASE, on ASCII input: any ASCII letter. -/
def isLetterC (c : Char) : Bool := ('A' ≤ c && c ≤ 'Z') || ('a' ≤ c && c ≤ 'z')

/-- ASCII lower-casing, modelling `str.lower()` on the ASCII strings
the pattern can capture. -/
def lowerC (c : Char) : Char :=
  if 'A' ≤ c && c ≤ 'Z' then Char.ofNat (c.toNat + 32) else c

/-- Lower-case a whole string (ASCII model of `str.lower()`). -/
def lowerStr (s : String) : String := String.mk (s.toList.map lowerC)

/-- Split a maximal leading run of digits from the input, as a greedy
`\d+` does. -/
def takeDigits : List Char → List Char × List Char
  | [] => ([], [])
  | c :: cs =>
    if isDigitC c then
      let p := takeDigits cs
      (c :: p.1, p.2)
    else ([], c :: cs)

/-- Drop a maximal leading run of separator characters, as the greedy
`[-_ ]*` does when followed by the date (every date alternative starts
with a digit, so only the maximal run can be followed by a date). -/
def dropSeps : List Char → List Char
  | [] => []
  | c :: cs => if isSepC c then dropSeps cs else c :: cs

/-- Python `$`: end of input, or a single trailing newline. -/
def atLineEnd (l : List Char) : Bool := l == [] || l == ['\n']

/-- Match `(?P<type> indd | pdf )` case-insensitively followed by `$`,
returning the raw extension characters. -/
def matchType (l : List Char) : Option (List Char) :=
  if (l.take 4).map lowerC == "indd".toList && atLineEnd (l.drop 4) then
    some (l.take 4)
  else if (l.take 3).map lowerC == "pdf".toList && atLineEnd (l.drop 3) then
    some (l.take 3)
  else none

/-- Match the literal dot followed by the extension and `$`. -/
def matchDotType : List Char → Option (List Char)
  | c :: rest => if c = '.' then matchType rest else none
  | [] => none

/-- First date alternative `\d\x7b6\x7d`, followed by the rest of the
pattern; returns (date token, raw extension). -/
def try6 (l : List Char) : Option (List Char × List Char) :=
  if (l.take 6).length == 6 && (l.take 6).all isDigitC then
    (matchDotType (l.drop 6)).map (fun t => (l.take 6, t))
  else none

/-- Second date alternative `\d\x7b8\x7d`. -/
def try8 (l : List Char) : Option (List Char × List Char) :=
  if (l.take 8).length == 8 && (l.take 8).all isDigitC then
    (matchDotType (l.drop 8)).map (fun t => (l.take 8, t))
  else none

/-- Third date alternative `\d\x7b2\x7d-\d\x7b2\x7d-(?:\d\x7b2\x7d|\d\x7b4\x7d)`;
the inner alternation tries the two-digit year first, then the
four-digit year, as ordered alternation does. -/
def tryHyphenated (l : List Char) : Option (List Char × List Char) :=
  match l with
  | a :: b :: h1 :: c :: d :: h2 :: rest =>
    if isDigitC a && isDigitC b && h1 == '-' && isDigitC c && isDigitC d
        && h2 == '-' then
      match rest with
      | e :: f :: rest2 =>
        if isDigitC e && isDigitC f then
          match matchDotType rest2 with
          | some t => some ([a, b, '-', c, d, '-', e, f], t)
          | none =>
            match rest2 with
            | g :: h :: rest4 =>
              if isDigitC g && isDigitC h then
                (matchDotType rest4).map
                  (fun t => ([a, b, '-', c, d, '-', e, f, g, h], t))
              else none
            | _ => none
        else none
      | _ => none
    else none
  | _ => none

/-- The ordered date alternation followed by the dot, extension and
anchor. -/
def matchDateSuffix (l : List Char) : Option (List Char × List Char) :=
  match try6 l with
  | some r => some r
  | none =>
    match try8 l with
    | some r => some r
    | none => tryHyphenated l

/-- The lazy section `\D+?`: `acc` holds the (reversed) section
characters consumed so far; at each step first try to complete the
match (separator run, date, dot, extension, anchor), then extend the
section by one more non-digit character. -/
def sectionLoop (acc : List Char) :
    List Char → Option (List Char × List Char × List Char)
  | [] =>
    (matchDateSuffix (dropSeps [])).map (fun r => (acc.reverse, r.1, r.2))
  | c :: rest =>
    match matchDateSuffix (dropSeps (c :: rest)) with
    | some r => some (acc.reverse, r.1, r.2)
    | none =>
      if isDigitC c then none else sectionLoop (c :: acc) rest

/-- Start the section: it needs at least one non-digit character. -/
def sectionStart (l : List Char) :
    Option (List Char × List Char × List Char) :=
  match l with
  | [] => none
  | c :: rest => if isDigitC c then none else sectionLoop [c] rest

/-- The greedy separator run `[-_ ]*` between the page numbers and the
section, with backtracking: prefer consuming each separator, and on
failure let the section start at it (separators are non-digits, so
they may open the section). -/
def afterPages : List Char → Option (List Char × List Char × List Char)
  | [] => none
  | c :: rest =>
    if isSepC c then
      match afterPages rest with
      | some r => some r
      | none => sectionStart (c :: rest)
    else sectionStart (c :: rest)

/-- The raw captures of a successful match, mirroring the named groups
of the pattern (`pfx` is the `prefix` group, `sect` the `section`
group; those two group names are spelled differently here only because
of Lean naming restrictions). -/
structure RawParse where
  pfx : List Char
  firstPage : List Char
  secondPage : Option (List Char)
  sect : List Char
  dateTok : List Char
  typeTok : List Char
deriving DecidableEq, Repr

/-- Package the section/date/type triple returned by `afterPages`. -/
def parseAfterPages (pfx fp : List Char) (sp : Option (List Char))
    (l : List Char) : Option RawParse :=
  (afterPages l).map (fun x => ⟨pfx, fp, sp, x.1, x.2.1, x.2.2⟩)

/-- Match everything after the optional one-letter prefix: the first
page number, the optional hyphen-introduced second page number (greedy,
with backtracking to the skipped alternative, under which the hyphen is
consumed by the following separator run), then the rest. -/
def parseFromDigits (pfx l1 : List Char) : Option RawParse :=
  let p := takeDigits l1
  if p.1.isEmpty then none
  else
    match p.2 with
    | c0 :: l3 =>
      if c0 = '-' then
        let q := takeDigits l3
        if q.1.isEmpty then parseAfterPages pfx p.1 none p.2
        else
          match parseAfterPages pfx p.1 (some q.1) q.2 with
          | some r => some r
          | none => parseAfterPages pfx p.1 none p.2
      else parseAfterPages pfx p.1 none p.2
    | [] => parseAfterPages pfx p.1 none p.2

/-- The anchored match of `Page._page_name_regex` against a filename.
A leading ASCII letter is taken by the prefix group (taking it is the
greedy choice, and declining it cannot help since `\d+` rejects a
letter); otherwise the prefix is empty. -/
def parseFront (l : List Char) : Option RawParse :=
  match l with
  | [] => none
  | c :: rest =>
    if isLetterC c then parseFromDigits [c] rest
    else parseFromDigits [] (c :: rest)

/-- `Page._page_name_regex.match(name)`, as raw captures. -/
def parsePageName (s : String) : Option RawParse := parseFront s.toList

/-! ## Calendar dates and `datetime.strptime` -/

/-- A calendar date, the `.date()` value stored on a Page. -/
structure PDate where
  year : Nat
  month : Nat
  day : Nat
deriving DecidableEq, Repr

/-- Gregorian leap-year rule, as used by `datetime.date`. -/
def isLeapYear (y : Nat) : Bool :=
  y % 4 == 0 && (y % 100 != 0 || y % 400 == 0)

/-- Number of days in a month of a given year. -/
def daysInMonth (y m : Nat) : Nat :=
  if m == 2 then (if isLeapYear y then 29 else 28)
  else if m == 4 || m == 6 || m == 9 || m == 11 then 30
  else 31

/-- Decimal value of a digit string, as Python `int()` on the captured
page-number groups. -/
def digitsToNat (l : List Char) : Nat :=
  l.foldl (fun acc c => acc * 10 + (c.toNat - '0'.toNat)) 0

/-- `datetime.strptime(s, fmt).date()` for the two formats the code
selects by length: six digits decode with `%d%m%y` and eight digits
with `%d%m%Y`.  The `%d` and `%m` directives accept only 01-31 and
01-12 in a fixed-width all-digit input (anything else leaves data
unconverted and raises ValueError), `%y` applies the POSIX pivot
(00-68 means 2000-2068, 69-99 means 1969-1999), `%Y` takes the four
digits as-is, and the `datetime` constructor then rejects a day beyond
the month's length and a year below MINYEAR = 1.  Any other input
length would leave the Python variable `date_format` unassigned; the
page-name pattern makes that unreachable. -/
def strptimeDayMonthYear (ds : List Char) : Except String PDate :=
  if ds.length = 6 then
    let dd := digitsToNat (ds.take 2)
    let mm := digitsToNat ((ds.drop 2).take 2)
    let yy := digitsToNat (ds.drop 4)
    if 1 ≤ dd ∧ dd ≤ 31 ∧ 1 ≤ mm ∧ mm ≤ 12 then
      let year := if yy ≤ 68 then 2000 + yy else 1900 + yy
      if dd ≤ daysInMonth year mm then Except.ok ⟨year, mm, dd⟩
      else Except.error "ValueError: day is out of range for month"
    else Except.error "ValueError: time data does not match format"
  else if ds.length = 8 then
    let dd := digitsToNat (ds.take 2)
    let mm := digitsToNat ((ds.drop 2).take 2)
    let year := digitsToNat (ds.drop 4)
    if 1 ≤ dd ∧ dd ≤ 31 ∧ 1 ≤ mm ∧ mm ≤ 12 then
      if 1 ≤ year then
        if dd ≤ daysInMonth year mm then Except.ok ⟨year, mm, dd⟩
        else Except.error "ValueError: day is out of range for month"
      else Except.error "ValueError: year 0 is out of range"
    else Except.error "ValueError: time data does not match format"
  else Except.error "NameError: date_format is not assigned"

/-! ## Page construction -/

/-- A filesystem path, split as pathlib does into the parent directory
and the final component (`Path.name`). -/
structure MPath where
  dir : String
  name : String
deriving DecidableEq, Repr

/-- The home directory used to model `Path.expanduser()`; its concrete
value never matters to the claims. -/
def homeDir : String := "/Users/user"

/-- `Path.expanduser()`, modelled for the plain leading-tilde form. -/
def MPath.expanduser (p : MPath) : MPath :=
  if p.dir.startsWith "~" then { p with dir := homeDir ++ p.dir.drop 1 }
  else p

/-- The validated page entity of `msutils/page.py` (`pfx` is the
`prefix` attribute and `sect` the `section` attribute, renamed only
because of Lean naming restrictions). -/
structure Page where
  path : MPath
  pages : List Nat
  date : PDate
  pfx : String
  sect : String
  type : String
deriving DecidableEq, Repr

/-- `Page.__init__`: match the filename against the pattern (ValueError
on failure), convert the page-number captures with `int`, strip the
hyphens from the date capture and decode it with `strptime` (which may
itself raise ValueError), lower-case the extension, and store the
user-expanded path. -/
def mkPage (p : MPath) : Except String Page :=
  match parsePageName p.name with
  | none => Except.error (p.name ++ " is an invalid filename")
  | some r =>
    match strptimeDayMonthYear (r.dateTok.filter (fun c => !(c == '-'))) with
    | Except.error e => Except.error e
    | Except.ok d =>
      Except.ok
        { path := p.expanduser
          pages := (r.firstPage ::
            (match r.secondPage with
             | some sp => [sp]
             | none => [])).map digitsToNat
          date := d
          pfx := String.mk r.pfx
          sect := String.mk r.sect
          type := String.mk (r.typeTok.map lowerC) }

/-! ## external_name -/

/-- strftime `%m`/`%d`: zero-padded to two digits. -/
def pad2 (n : Nat) : String :=
  if n < 10 then "0" ++ toString n else toString n

/-- Python format spec `03`: zero-padded to width three. -/
def pad3 (n : Nat) : String :=
  if n < 10 then "00" ++ toString n
  else if n < 100 then "0" ++ toString n
  else toString n

/-- strftime `%Y`: the year in decimal.  The C library strftime used by
CPython on the glibc and BSD platforms this code runs on prints the
year without zero-padding; every year a Page can carry from a six-digit
date is at least 1969 and so prints with four digits. -/
def fmtYear (n : Nat) : String := toString n

/-- `Page.external_name`: `MS_\x7bdate:%Y_%m_%d\x7d_\x7bnums\x7d.\x7bsuffix\x7d`,
with the prefix and a following underscore inserted after `MS` when the
prefix is non-empty, page numbers zero-padded to three digits and
joined with a hyphen, and the stored (already lower-cased) extension. -/
def external_name (p : Page) : String :=
  let nums := String.intercalate "-" (p.pages.map pad3)
  let datePart :=
    fmtYear p.date.year ++ "_" ++ pad2 p.date.month ++ "_" ++ pad2 p.date.day
  if p.pfx = "" then "MS_" ++ datePart ++ "_" ++ nums ++ "." ++ p.type
  else "MS_" ++ p.pfx ++ "_" ++ datePart ++ "_" ++ nums ++ "." ++ p.type

/-! ## Comparison and ordering

Python compares the 5-tuples returned by `Page._comparison_keys`
lexicographically: dates by (year, month, day), strings by code
points, the page-number tuple element-wise.  That lexicographic
comparison is embedded through three-way comparators. -/

/-- Three-way comparison in a linear order. -/
def cmpOrd {α : Type} [LinearOrder α] (a b : α) : Ordering :=
  if a < b then Ordering.lt else if b < a then Ordering.gt else Ordering.eq

/-- Lexicographic list comparison (a proper prefix is smaller), as
Python compares tuples. -/
def cmpList {α : Type} (f : α → α → Ordering) :
    List α → List α → Ordering
  | [], [] => Ordering.eq
  | [], _ :: _ => Ordering.lt
  | _ :: _, [] => Ordering.gt
  | a :: as, b :: bs =>
    match f a b with
    | Ordering.eq => cmpList f as bs
    | o => o

/-- Resolve ties: the second comparison decides when the first is a
tie, exactly as the next tuple component does in Python. -/
def ordThen (a b : Ordering) : Ordering :=
  match a with
  | Ordering.eq => b
  | o => o

/-- Lexicographic comparison of a pair from comparisons of the
components. -/
def cmpProd {α β : Type} (f : α → α → Ordering) (g : β → β → Ordering)
    (x y : α × β) : Ordering :=
  ordThen (f x.1 y.1) (g x.2 y.2)

/-- Python string comparison: lexicographic on code points. -/
def cmpStr (a b : String) : Ordering := cmpList cmpOrd a.toList b.toList

/-- `datetime.date` as the (year, month, day) triple it compares as. -/
def dateTriple (d : PDate) : Nat × Nat × Nat := (d.year, d.month, d.day)

/-- `datetime.date` comparison: lexicographic on (year, month, day). -/
def cmpDate (a b : PDate) : Ordering :=
  cmpProd cmpOrd (cmpProd cmpOrd cmpOrd) (dateTriple a) (dateTriple b)

/-- `Page._comparison_keys`: (date, type, prefix, pages, section
lower-cased), in that priority order. -/
def comparison_keys (p : Page) :
    PDate × String × String × List Nat × String :=
  (p.date, p.type, Page.pfx p, p.pages, lowerStr p.sect)

/-- Lexicographic comparison of two comparison keys, as Python compares
the key tuples. -/
def cmpKey (a b : PDate × String × String × List Nat × String) :
    Ordering :=
  cmpProd cmpDate
    (cmpProd cmpStr (cmpProd cmpStr (cmpProd (cmpList cmpOrd) cmpStr))) a b

/-- `Page.__eq__`: equality of the comparison-key tuples. -/
def pageEq (p q : Page) : Bool :=
  decide (comparison_keys p = comparison_keys q)

/-- `Page.__ne__`: negation of `__eq__`. -/
def pageNe (p q : Page) : Bool := !(pageEq p q)

/-- `Page.__lt__`: tuple comparison of the keys. -/
def pageLt (p q : Page) : Bool :=
  cmpKey (comparison_keys p) (comparison_keys q) == Ordering.lt

/-- `Page.__gt__`: tuple comparison of the keys. -/
def pageGt (p q : Page) : Bool :=
  cmpKey (comparison_keys p) (comparison_keys q) == Ordering.gt

/-- `Page.__le__`: defined in the source as `__lt__ or __eq__`. -/
def pageLe (p q : Page) : Bool := pageLt p q || pageEq p q

/-- `Page.__ge__`: defined in the source as `__gt__ or __eq__`. -/
def pageGe (p q : Page) : Bool := pageGt p q || pageEq p q

/-! ## Sorting, Python sets, and the date filter -/

/-- Insert into a sorted list, after every element that is strictly
smaller and before the first that is not; with `pageLt` a strict weak
order this is the unique stable-sort placement, so the insertion sort
below returns exactly what Python's stable `sorted` returns. -/
def insertPage (x : Page) : List Page → List Page
  | [] => [x]
  | y :: ys => if pageLt y x then y :: insertPage x ys else x :: y :: ys

/-- `sorted` on Pages (stable, by `__lt__`). -/
def pySorted : List Page → List Page
  | [] => []
  | x :: xs => insertPage x (pySorted xs)

/-- The tuple `Page.__hash__` feeds to `hash`: (path, pages, date,
prefix, section, type).  Unlike the comparison key it contains the path
and the original-case section.  Python's `hash` is modelled as
collision-free: two tuples are treated as hashing alike exactly when
they are equal. -/
def hashInput (p : Page) :
    MPath × List Nat × PDate × String × String × String :=
  (p.path, p.pages, p.date, Page.pfx p, p.sect, p.type)

/-- Adding one element to a Python `set` of Pages: a new element is
kept unless the set already holds one with the same hash tuple (set
lookup only ever calls `__eq__` on hash-equal entries, and hash-tuple
equality already implies `__eq__` here). -/
def pySetAdd (l : List Page) (x : Page) : List Page :=
  if l.any (fun y => decide (hashInput y = hashInput x)) then l
  else l ++ [x]

/-- A Python `set` built from a list of Pages, in insertion order. -/
def pySet (l : List Page) : List Page := l.foldl pySetAdd []

/-- The distinct dates of a list of Pages, in first-appearance order:
the set comprehension in `_filter_pages_for_date` (`datetime.date`
hashes collision-free in this model as well). -/
def distinctDates (pages : List Page) : List PDate :=
  pages.foldl
    (fun acc p => if acc.contains p.date then acc else acc ++ [p.date]) []

/-- `_filter_pages_for_date`: if exactly one distinct date is present
return the input unchanged; otherwise drop the set of pages whose date
differs from the requested one (a set difference removes the entries
whose hash tuple matches a dropped page) and return the remainder
sorted.  The two log warnings have no observable effect. -/
def filter_pages_for_date (pages : List Page) (d : PDate) : List Page :=
  if (distinctDates pages).length = 1 then pages
  else
    let unexpected := pySet (pages.filter (fun p => !(decide (p.date = d))))
    pySorted ((pySet pages).filter
      (fun p => !(unexpected.any (fun q => decide (hashInput q = hashInput p)))))

/-! ## Edition stores and the directory resolver (`msutils/edition.py`)

The filesystem is abstract: an existence predicate on path strings and,
for `directory_pdfs`, a listing that is available exactly for paths
that exist.  The two directory-naming templates are reproduced exactly,
including the English weekday and month names the directories were
created with. -/

/-- Days in the months before month `m` of year `y`. -/
def daysBeforeMonth (y m : Nat) : Nat :=
  (List.range (m - 1)).foldl (fun acc i => acc + daysInMonth y (i + 1)) 0

/-- Proleptic-Gregorian ordinal of a date (0001-01-01 is day 1), as
`datetime.date.toordinal`. -/
def dateOrdinal (dt : PDate) : Nat :=
  let y := dt.year - 1
  365 * y + y / 4 - y / 100 + y / 400 + daysBeforeMonth dt.year dt.month + dt.day

/-- `date.weekday()`: Monday is 0.  0001-01-01 was a Monday. -/
def weekdayIdx (dt : PDate) : Nat := (dateOrdinal dt + 6) % 7

/-- strftime `%A` (C locale). -/
def weekdayName (dt : PDate) : String :=
  ["Monday", "Tuesday", "Wednesday", "Thursday", "Friday", "Saturday",
   "Sunday"].getD (weekdayIdx dt) ""

/-- strftime `%B` (C locale). -/
def monthName (dt : PDate) : String :=
  ["January", "February", "March", "April", "May", "June", "July",
   "August", "September", "October", "November",
   "December"].getD (dt.month - 1) ""

/-- strftime `%b` (C locale). -/
def monthAbbrev (dt : PDate) : String :=
  ["Jan", "Feb", "Mar", "Apr", "May", "Jun", "Jul", "Aug", "Sep", "Oct",
   "Nov", "Dec"].getD (dt.month - 1) ""

/-- strftime `%Y-%m-%d`, used in the NoEditionError message. -/
def fmtYmd (dt : PDate) : String :=
  fmtYear dt.year ++ "-" ++ pad2 dt.month ++ "-" ++ pad2 dt.day

/-- CURRENT_EDITION_TEMPLATE, strftime `%Y-%m-%d %A %b %-d`
(`%-d` is the day of the month without padding). -/
def currentEditionName (dt : PDate) : String :=
  fmtYmd dt ++ " " ++ weekdayName dt ++ " " ++ monthAbbrev dt ++ " "
    ++ toString dt.day

/-- ARCHIVE_EDITION_TEMPLATE, strftime `%Y/%m %B/%Y-%m-%d %A`. -/
def archiveEditionName (dt : PDate) : String :=
  fmtYear dt.year ++ "/" ++ pad2 dt.month ++ " " ++ monthName dt ++ "/"
    ++ fmtYmd dt ++ " " ++ weekdayName dt

/-- One entry of EDITION_STORES: a root path and the directory-naming
template for editions under that root. -/
structure EditionStore where
  root : String
  template : PDate → String

/-- The configured EDITION_STORES list, in order; the first root is
`Path.expanduser` applied to `~/Server/Pages`. -/
def EDITION_STORES : List EditionStore :=
  [⟨homeDir ++ "/Server/Pages", currentEditionName⟩,
   ⟨"/Volumes/MS-T4-Archive-2002-2016", archiveEditionName⟩,
   ⟨"/Volumes/MS-T4-Archive-Since-2017", archiveEditionName⟩,
   ⟨"/Volumes/Server/Pages", currentEditionName⟩,
   ⟨"/Volumes/Archive 2002-2016", archiveEditionName⟩,
   ⟨"/Volumes/Archive since 2017", archiveEditionName⟩]

/-- The candidate edition directory a store offers for a date:
`store.joinpath(path_template.format(date))`. -/
def candidate (st : EditionStore) (d : PDate) : String :=
  st.root ++ "/" ++ st.template d

/-- The two failure modes of edition resolution. -/
inductive EditionError where
  | noEditionStores (msg : String)
  | noEdition (msg : String)
deriving DecidableEq, Repr

/-- The message NoEditionStoresError is raised with. -/
def noStoresMsg : String :=
  "No edition stores are connected, either current or archive"

/-- The message NoEditionError is raised with: it carries the date. -/
def noEditionMsg (d : PDate) : String :=
  "Cannot find edition for " ++ fmtYmd d

/-- `_fetch_stores`, over an arbitrary configured list: keep the stores
whose root exists, and raise NoEditionStoresError when none does. -/
def fetchStores (fs : String → Bool) (stores : List EditionStore) :
    Except EditionError (List EditionStore) :=
  let present := stores.filter (fun st => fs st.root)
  if present.isEmpty then
    Except.error (EditionError.noEditionStores noStoresMsg)
  else Except.ok present

/-- The loop of `edition_dir`: return the first present store whose
candidate directory exists, else raise NoEditionError for the date. -/
def editionSearch (fs : String → Bool) (d : PDate) :
    List EditionStore → Except EditionError String
  | [] => Except.error (EditionError.noEdition (noEditionMsg d))
  | st :: rest =>
    if fs (candidate st d) then Except.ok (candidate st d)
    else editionSearch fs d rest

/-- `edition_dir` over an arbitrary configured store list. -/
def edition_dir_over (stores : List EditionStore) (fs : String → Bool)
    (d : PDate) : Except EditionError String :=
  match fetchStores fs stores with
  | Except.error e => Except.error e
  | Except.ok present => editionSearch fs d present

/-- `edition_dir`: resolution against the configured EDITION_STORES. -/
def edition_dir (fs : String → Bool) (d : PDate) :
    Except EditionError String :=
  edition_dir_over EDITION_STORES fs d

/-! ## Directory scanning -/

/-- The abstract filesystem `directory_pdfs` runs against: existence of
a path, and the directory listing, which pathlib's `iterdir` can only
produce for a path that exists (`none` models the FileNotFoundError it
would raise otherwise). -/
structure Fs where
  pathExists : String → Bool
  iterdir : String → Option (List MPath)

/-- `Path.suffix`: the final dot-extension of the name, empty for names
with no dot, for dotfiles, and for names ending in a dot. -/
def pathSuffix (name : String) : String :=
  match (name.toList.reverse.takeWhile (fun c => !(c == '.'))).reverse with
  | [] => ""
  | ext =>
    if ext.length + 1 < name.length ∧ name.toList.contains '.' then
      String.mk ('.' :: ext)
    else ""

/-- `_paths_to_pages`: construct a Page from each path, dropping the
ones whose construction raises ValueError. -/
def pathsToPages (l : List MPath) : List Page :=
  l.filterMap (fun p => (mkPage p).toOption)

/-- `directory_pdfs`: an empty list for a directory that does not
exist; otherwise the sorted Pages of the direct entries carrying a
`.pdf` suffix.  The `Except` layer records that the body after the
existence guard could in principle raise. -/
def directory_pdfs (fs : Fs) (path : String) :
    Except String (List Page) :=
  if fs.pathExists path = false then Except.ok []
  else
    match fs.iterdir path with
    | none => Except.error "FileNotFoundError"
    | some entries =>
      Except.ok (pySorted (pathsToPages
        (entries.filter (fun p => pathSuffix p.name == ".pdf"))))

/-! ## Laws of the three-way comparators -/

/-- The three laws a lexicographic component comparator satisfies. -/
structure LawfulCmp {α : Type} (f : α → α → Ordering) : Prop where
  eq_iff : ∀ a b, f a b = Ordering.eq ↔ a = b
  swap : ∀ a b, f a b = Ordering.lt ↔ f b a = Ordering.gt
  lt_trans : ∀ a b c, f a b = Ordering.lt → f b c = Ordering.lt →
    f a c = Ordering.lt

theorem cmpOrd_lt_iff {α : Type} [LinearOrder α] (a b : α) :
    cmpOrd a b = Ordering.lt ↔ a < b := by
  unfold cmpOrd
  rcases lt_trichotomy a b with h | h | h
  · simp [h]
  · subst h
    simp [lt_irrefl]
  · simp [h.not_lt, h, (lt_asymm h)]

theorem cmpOrd_gt_iff {α : Type} [LinearOrder α] (a b : α) :
    cmpOrd a b = Ordering.gt ↔ b < a := by
  unfold cmpOrd
  rcases lt_trichotomy a b with h | h | h
  · simp [h, lt_asymm h]
  · subst h
    simp [lt_irrefl]
  · simp [h.not_lt, h]

theorem cmpOrd_eq_iff {α : Type} [LinearOrder α] (a b : α) :
    cmpOrd a b = Ordering.eq ↔ a = b := by
  unfold cmpOrd
  rcases lt_trichotomy a b with h | h | h
  · simp [h, ne_of_lt h]
  · subst h
    simp [lt_irrefl]
  · simp [h.not_lt, h, (ne_of_gt h)]

theorem lawful_cmpOrd {α : Type} [LinearOrder α] :
    LawfulCmp (fun a b : α => cmpOrd a b) := by
  refine ⟨fun a b => cmpOrd_eq_iff a b, fun a b => ?_, fun a b c h1 h2 => ?_⟩
  · rw [cmpOrd_lt_iff, cmpOrd_gt_iff]
  · rw [cmpOrd_lt_iff] at h1 h2 ⊢
    exact h1.trans h2

theorem ordThen_eq_iff (a b : Ordering) :
    ordThen a b = Ordering.eq ↔ a = Ordering.eq ∧ b = Ordering.eq := by
  cases a <;> simp [ordThen]

theorem lawful_comap {α β : Type} {f : α → α → Ordering}
    {g : β → β → Ordering} (hg : LawfulCmp g) (e : α → β)
    (he : Function.Injective e) (hfg : ∀ a b, f a b = g (e a) (e b)) :
    LawfulCmp f := by
  refine ⟨fun a b => ?_, fun a b => ?_, fun a b c h1 h2 => ?_⟩
  · rw [hfg, hg.eq_iff]
    exact ⟨fun h => he h, fun h => by rw [h]⟩
  · rw [hfg, hfg, hg.swap]
  · rw [hfg] at h1 h2 ⊢
    exact hg.lt_trans _ _ _ h1 h2

theorem lawful_cmpProd {α β : Type} {f : α → α → Ordering}
    {g : β → β → Ordering} (hf : LawfulCmp f) (hg : LawfulCmp g) :
    LawfulCmp (cmpProd f g) := by
  refine ⟨fun x y => ?_, fun x y => ?_, fun x y z h1 h2 => ?_⟩
  · rw [cmpProd, ordThen_eq_iff, hf.eq_iff, hg.eq_iff, Prod.ext_iff]
  · unfold cmpProd
    cases h : f x.1 y.1 with
    | lt =>
      have h' : f y.1 x.1 = Ordering.gt := (hf.swap _ _).mp h
      simp [ordThen, h, h']
    | eq =>
      have hxy : x.1 = y.1 := (hf.eq_iff _ _).mp h
      have h' : f y.1 x.1 = Ordering.eq := (hf.eq_iff _ _).mpr hxy.symm
      simp [ordThen, h, h', hg.swap]
    | gt =>
      have h' : f y.1 x.1 = Ordering.lt := (hf.swap _ _).mpr h
      simp [ordThen, h, h']
  · unfold cmpProd at h1 h2 ⊢
    cases hxy : f x.1 y.1 with
    | lt =>
      cases hyz : f y.1 z.1 with
      | lt => simp [ordThen, hf.lt_trans _ _ _ hxy hyz]
      | eq =>
        have : y.1 = z.1 := (hf.eq_iff _ _).mp hyz
        simp [ordThen, this ▸ hxy]
      | gt => simp [ordThen, hyz] at h2
    | eq =>
      have hxy' : x.1 = y.1 := (hf.eq_iff _ _).mp hxy
      cases hyz : f y.1 z.1 with
      | lt => simp [ordThen, hxy' ▸ hyz]
      | eq =>
        rw [hxy] at h1
        rw [hyz] at h2
        simp only [ordThen] at h1 h2
        have hxz : f x.1 z.1 = Ordering.eq :=
          (hf.eq_iff _ _).mpr (hxy'.trans ((hf.eq_iff _ _).mp hyz))
        simp [ordThen, hxz, hg.lt_trans _ _ _ h1 h2]
      | gt => simp [ordThen, hyz] at h2
    | gt => simp [ordThen, hxy] at h1

theorem cmpList_eq_iff {α : Type} {f : α → α → Ordering}
    (hf : LawfulCmp f) : ∀ l1 l2 : List α,
    cmpList f l1 l2 = Ordering.eq ↔ l1 = l2 := by
  intro l1
  induction l1 with
  | nil =>
    intro l2
    cases l2 <;> simp [cmpList]
  | cons a as ih =>
    intro l2
    cases l2 with
    | nil => simp [cmpList]
    | cons b bs =>
      cases h : f a b with
      | lt =>
        have : a ≠ b := fun he => by
          rw [(hf.eq_iff a b).mpr he] at h
          exact Ordering.noConfusion h
        simp [cmpList, h, this]
      | eq =>
        have he : a = b := (hf.eq_iff a b).mp h
        subst he
        simp [cmpList, h, ih]
      | gt =>
        have : a ≠ b := fun he => by
          rw [(hf.eq_iff a b).mpr he] at h
          exact Ordering.noConfusion h
        simp [cmpList, h, this]

theorem cmpList_swap {α : Type} {f : α → α → Ordering}
    (hf : LawfulCmp f) : ∀ l1 l2 : List α,
    cmpList f l1 l2 = Ordering.lt ↔ cmpList f l2 l1 = Ordering.gt := by
  intro l1
  induction l1 with
  | nil =>
    intro l2
    cases l2 <;> simp [cmpList]
  | cons a as ih =>
    intro l2
    cases l2 with
    | nil => simp [cmpList]
    | cons b bs =>
      cases h : f a b with
      | lt =>
        have h' : f b a = Ordering.gt := (hf.swap _ _).mp h
        simp [cmpList, h, h']
      | eq =>
        have he : a = b := (hf.eq_iff _ _).mp h
        have h' : f b a = Ordering.eq := (hf.eq_iff _ _).mpr he.symm
        simp [cmpList, h, h', ih]
      | gt =>
        have h' : f b a = Ordering.lt := (hf.swap _ _).mpr h
        simp [cmpList, h, h']

theorem cmpList_lt_trans {α : Type} {f : α → α → Ordering}
    (hf : LawfulCmp f) : ∀ l1 l2 l3 : List α,
    cmpList f l1 l2 = Ordering.lt → cmpList f l2 l3 = Ordering.lt →
    cmpList f l1 l3 = Ordering.lt := by
  intro l1
  induction l1 with
  | nil =>
    intro l2 l3 h1 h2
    cases l2 with
    | nil => simp [cmpList] at h1
    | cons b bs =>
      cases l3 with
      | nil => simp [cmpList] at h2
      | cons c cs => simp [cmpList]
  | cons a as ih =>
    intro l2 l3 h1 h2
    cases l2 with
    | nil => simp [cmpList] at h1
    | cons b bs =>
      cases l3 with
      | nil => simp [cmpList] at h2
      | cons c cs =>
        cases hab : f a b with
        | lt =>
          cases hbc : f b c with
          | lt => simp [cmpList, hf.lt_trans _ _ _ hab hbc]
          | eq =>
            have : b = c := (hf.eq_iff _ _).mp hbc
            simp [cmpList, this ▸ hab]
          | gt => simp [cmpList, hbc] at h2
        | eq =>
          have he : a = b := (hf.eq_iff _ _).mp hab
          rw [cmpList, hab] at h1
          cases hbc : f b c with
          | lt => simp [cmpList, he ▸ hbc]
          | eq =>
            rw [cmpList, hbc] at h2
            have hac : f a c = Ordering.eq :=
              (hf.eq_iff _ _).mpr (he.trans ((hf.eq_iff _ _).mp hbc))
            simp [cmpList, hac, ih _ _ h1 h2]
          | gt => simp [cmpList, hbc] at h2
        | gt => simp [cmpList, hab] at h1

theorem lawful_cmpList {α : Type} {f : α → α → Ordering}
    (hf : LawfulCmp f) : LawfulCmp (cmpList f) :=
  ⟨cmpList_eq_iff hf, cmpList_swap hf, cmpList_lt_trans hf⟩

theorem lawful_cmpStr : LawfulCmp cmpStr := by
  refine lawful_comap (lawful_cmpList (lawful_cmpOrd (α := Char)))
    String.toList (fun a b h => ?_) (fun _ _ => rfl)
  cases a
  cases b
  simp only [String.toList] at h
  rw [h]

theorem dateTriple_injective : Function.Injective dateTriple := by
  intro a b h
  cases a
  cases b
  simpa [dateTriple, PDate.mk.injEq] using h

theorem lawful_cmpDate : LawfulCmp cmpDate :=
  lawful_comap
    (lawful_cmpProd (lawful_cmpOrd (α := Nat))
      (lawful_cmpProd (lawful_cmpOrd (α := Nat)) (lawful_cmpOrd (α := Nat))))
    dateTriple dateTriple_injective (fun _ _ => rfl)

theorem lawful_cmpKey : LawfulCmp cmpKey :=
  lawful_cmpProd lawful_cmpDate
    (lawful_cmpProd lawful_cmpStr
      (lawful_cmpProd lawful_cmpStr
        (lawful_cmpProd (lawful_cmpList (lawful_cmpOrd (α := Nat)))
          lawful_cmpStr)))

/-! ## Page-level ordering facts -/

theorem pageEq_iff (p q : Page) :
    pageEq p q = true ↔ comparison_keys p = comparison_keys q := by
  simp [pageEq]

theorem ordBeq_iff (a b : Ordering) : (a == b) = true ↔ a = b := by
  cases a <;> cases b <;> decide

theorem pageLt_iff (p q : Page) :
    pageLt p q = true ↔
      cmpKey (comparison_keys p) (comparison_keys q) = Ordering.lt := by
  simp [pageLt, ordBeq_iff]

theorem pageGt_iff (p q : Page) :
    pageGt p q = true ↔
      cmpKey (comparison_keys p) (comparison_keys q) = Ordering.gt := by
  simp [pageGt, ordBeq_iff]

theorem pageLt_asymm {p q : Page} (h : pageLt p q = true) :
    pageLt q p = false := by
  rw [pageLt_iff] at h
  have hgt := (lawful_cmpKey.swap _ _).mp h
  rw [← Bool.not_eq_true, pageLt_iff, hgt]
  simp

theorem pageLt_of_not (p q : Page) (h : pageLt p q = false)
    (hne : pageEq p q = false) : pageLt q p = true := by
  rw [pageLt_iff]
  cases hc : cmpKey (comparison_keys q) (comparison_keys p) with
  | lt => rfl
  | eq =>
    have := (lawful_cmpKey.eq_iff _ _).mp hc
    rw [← Bool.not_eq_true, pageEq_iff] at hne
    exact absurd this.symm hne
  | gt =>
    have := (lawful_cmpKey.swap _ _).mpr hc
    rw [← Bool.not_eq_true, pageLt_iff] at h
    exact absurd this h

theorem notLt_trans {a b c : Page} (h1 : pageLt b a = false)
    (h2 : pageLt c b = false) : pageLt c a = false := by
  rw [← Bool.not_eq_true, pageLt_iff] at h1 h2 ⊢
  intro hca
  cases hc : cmpKey (comparison_keys c) (comparison_keys b) with
  | lt => exact h2 hc
  | eq =>
    have := (lawful_cmpKey.eq_iff _ _).mp hc
    exact h1 (by rw [← this]; exact hca)
  | gt =>
    have hbc := (lawful_cmpKey.swap _ _).mpr hc
    exact h1 (lawful_cmpKey.lt_trans _ _ _ hbc hca)

/-! ## Sorting and Python-set lemmas -/

theorem mem_insertPage (x a : Page) (l : List Page) :
    a ∈ insertPage x l ↔ a = x ∨ a ∈ l := by
  induction l with
  | nil => simp [insertPage]
  | cons y ys ih =>
    by_cases h : pageLt y x = true
    · simp only [insertPage, if_pos h, List.mem_cons, ih]
      tauto
    · rw [Bool.not_eq_true] at h
      simp only [insertPage, h, Bool.false_eq_true, if_false, List.mem_cons]

theorem mem_pySorted (a : Page) (l : List Page) :
    a ∈ pySorted l ↔ a ∈ l := by
  induction l with
  | nil => simp [pySorted]
  | cons x xs ih => simp [pySorted, mem_insertPage, ih]

theorem pairwise_insertPage (x : Page) (l : List Page)
    (h : l.Pairwise (fun a b => pageLt b a = false)) :
    (insertPage x l).Pairwise (fun a b => pageLt b a = false) := by
  induction l with
  | nil => simp [insertPage]
  | cons y ys ih =>
    rcases List.pairwise_cons.mp h with ⟨hy, hys⟩
    by_cases hlt : pageLt y x = true
    · rw [insertPage, if_pos hlt]
      refine List.pairwise_cons.mpr ⟨?_, ih hys⟩
      intro z hz
      rcases (mem_insertPage x z ys).mp hz with rfl | hz
      · exact pageLt_asymm hlt
      · exact hy z hz
    · rw [Bool.not_eq_true] at hlt
      rw [insertPage, hlt]
      simp only [Bool.false_eq_true, if_false]
      refine List.pairwise_cons.mpr ⟨?_, h⟩
      intro z hz
      rcases List.mem_cons.mp hz with rfl | hz
      · exact hlt
      · exact notLt_trans hlt (hy z hz)

theorem pairwise_pySorted (l : List Page) :
    (pySorted l).Pairwise (fun a b => pageLt b a = false) := by
  induction l with
  | nil => simp [pySorted]
  | cons x xs ih => exact pairwise_insertPage x (pySorted xs) ih

theorem hashInput_inj {p q : Page} (h : hashInput p = hashInput q) :
    p = q := by
  cases p
  cases q
  simp only [hashInput, Prod.mk.injEq] at h
  simp [Page.mk.injEq]
  tauto

theorem mem_pySetAdd (a x : Page) (l : List Page) :
    a ∈ pySetAdd l x ↔ a ∈ l ∨ a = x := by
  unfold pySetAdd
  by_cases h : l.any (fun y => decide (hashInput y = hashInput x)) = true
  · rw [if_pos h]
    rcases List.any_eq_true.mp h with ⟨y, hy, hyx⟩
    have : y = x := hashInput_inj (of_decide_eq_true hyx)
    subst this
    constructor
    · exact fun ha => Or.inl ha
    · rintro (ha | rfl)
      · exact ha
      · exact hy
  · rw [Bool.not_eq_true] at h
    rw [if_neg (by rw [h]; exact Bool.false_ne_true)]
    simp

theorem mem_pySet_aux (a : Page) : ∀ (l acc : List Page),
    a ∈ l.foldl pySetAdd acc ↔ a ∈ acc ∨ a ∈ l := by
  intro l
  induction l with
  | nil => simp
  | cons x xs ih =>
    intro acc
    rw [List.foldl_cons, ih, mem_pySetAdd]
    simp only [List.mem_cons]
    tauto

theorem mem_pySet (a : Page) (l : List Page) : a ∈ pySet l ↔ a ∈ l := by
  rw [pySet, mem_pySet_aux]
  simp

/-! ## distinctDates lemmas -/

theorem distinctDates_foldl_ne (l : List Page) :
    ∀ acc : List PDate, acc ≠ [] →
    l.foldl
      (fun acc p => if acc.contains p.date then acc else acc ++ [p.date])
      acc ≠ [] := by
  induction l with
  | nil => intro acc h; simpa using h
  | cons p ps ih =>
    intro acc h
    rw [List.foldl_cons]
    apply ih
    by_cases hc : p.date ∈ acc
    · simpa [hc] using h
    · simp [hc]

theorem distinctDates_eq_nil {pages : List Page}
    (h : distinctDates pages = []) : pages = [] := by
  cases pages with
  | nil => rfl
  | cons p ps =>
    exfalso
    rw [distinctDates, List.foldl_cons] at h
    refine distinctDates_foldl_ne ps _ ?_ h
    simp

/-! ## Soundness facts of the filename parser -/

theorem digit_not_hyphen {c : Char} (h : isDigitC c = true) :
    (c == '-') = false := by
  by_cases he : c = '-'
  · subst he
    exact absurd h (by decide)
  · simp [he]

theorem filter_of_all_digits {l : List Char}
    (h : l.all isDigitC = true) :
    l.filter (fun c => !(c == '-')) = l := by
  refine List.filter_eq_self.mpr (fun c hc => ?_)
  have hd := List.all_eq_true.mp h c hc
  simp [digit_not_hyphen hd]

theorem try6_shape {l dt t} (h : try6 l = some (dt, t)) :
    (dt.filter (fun c => !(c == '-'))).length = 6 := by
  unfold try6 at h
  split at h
  · rename_i hc
    rcases Option.map_eq_some'.mp h with ⟨t', _, he⟩
    have hdt : dt = l.take 6 := (Prod.ext_iff.mp he).1.symm
    rw [Bool.and_eq_true] at hc
    obtain ⟨hlen, hall⟩ := hc
    rw [hdt, filter_of_all_digits hall]
    simp only [beq_iff_eq] at hlen
    exact hlen
  · exact Option.noConfusion h

theorem try8_shape {l dt t} (h : try8 l = some (dt, t)) :
    (dt.filter (fun c => !(c == '-'))).length = 8 := by
  unfold try8 at h
  split at h
  · rename_i hc
    rcases Option.map_eq_some'.mp h with ⟨t', _, he⟩
    have hdt : dt = l.take 8 := (Prod.ext_iff.mp he).1.symm
    rw [Bool.and_eq_true] at hc
    obtain ⟨hlen, hall⟩ := hc
    rw [hdt, filter_of_all_digits hall]
    simp only [beq_iff_eq] at hlen
    exact hlen
  · exact Option.noConfusion h

theorem tryHyphenated_shape {l dt t}
    (h : tryHyphenated l = some (dt, t)) :
    (dt.filter (fun c => !(c == '-'))).length = 6 ∨
      (dt.filter (fun c => !(c == '-'))).length = 8 := by
  unfold tryHyphenated at h
  split at h
  case h_2 => exact Option.noConfusion h
  rename_i a b h1 c d h2 rest
  split at h
  case isFalse => exact Option.noConfusion h
  rename_i hc
  simp only [Bool.and_eq_true] at hc
  obtain ⟨⟨⟨⟨⟨ha, hb⟩, -⟩, hcd⟩, hd⟩, -⟩ := hc
  cases rest with
  | nil => exact Option.noConfusion h
  | cons e rest1 =>
    cases rest1 with
    | nil => exact Option.noConfusion h
    | cons f rest2 =>
      simp only [] at h
      by_cases hef : (isDigitC e && isDigitC f) = true
      · rw [if_pos hef] at h
        rw [Bool.and_eq_true] at hef
        obtain ⟨he, hf⟩ := hef
        cases hdot : matchDotType rest2 with
        | some t0 =>
          rw [hdot] at h
          simp only [] at h
          left
          simp only [Option.some.injEq, Prod.mk.injEq] at h
          obtain ⟨hdt, -⟩ := h
          subst hdt
          simp [List.filter, digit_not_hyphen ha, digit_not_hyphen hb,
            digit_not_hyphen hcd, digit_not_hyphen hd, digit_not_hyphen he,
            digit_not_hyphen hf]
        | none =>
          rw [hdot] at h
          simp only [] at h
          cases rest2 with
          | nil => exact Option.noConfusion h
          | cons g rest3 =>
            cases rest3 with
            | nil => exact Option.noConfusion h
            | cons hh rest4 =>
              simp only [] at h
              by_cases hgh : (isDigitC g && isDigitC hh) = true
              · rw [if_pos hgh] at h
                rw [Bool.and_eq_true] at hgh
                obtain ⟨hg, hh2⟩ := hgh
                rcases Option.map_eq_some'.mp h with ⟨t', -, hpair⟩
                right
                have hdt : dt = [a, b, '-', c, d, '-', e, f, g, hh] :=
                  (Prod.ext_iff.mp hpair).1.symm
                subst hdt
                simp [List.filter, digit_not_hyphen ha, digit_not_hyphen hb,
                  digit_not_hyphen hcd, digit_not_hyphen hd,
                  digit_not_hyphen he, digit_not_hyphen hf,
                  digit_not_hyphen hg, digit_not_hyphen hh2]
              · rw [if_neg hgh] at h
                exact Option.noConfusion h
      · rw [if_neg hef] at h
        exact Option.noConfusion h

theorem matchDateSuffix_shape {l dt t}
    (h : matchDateSuffix l = some (dt, t)) :
    (dt.filter (fun c => !(c == '-'))).length = 6 ∨
      (dt.filter (fun c => !(c == '-'))).length = 8 := by
  unfold matchDateSuffix at h
  cases h6 : try6 l with
  | some r =>
    rw [h6] at h
    simp only [] at h
    obtain ⟨r1, r2⟩ := r
    cases h
    exact Or.inl (try6_shape h6)
  | none =>
    rw [h6] at h
    simp only [] at h
    cases h8 : try8 l with
    | some r =>
      rw [h8] at h
      simp only [] at h
      obtain ⟨r1, r2⟩ := r
      cases h
      exact Or.inr (try8_shape h8)
    | none =>
      rw [h8] at h
      simp only [] at h
      exact tryHyphenated_shape h

theorem sectionLoop_shape : ∀ (acc l sec dt t : List Char),
    sectionLoop acc l = some (sec, dt, t) →
    (dt.filter (fun c => !(c == '-'))).length = 6 ∨
      (dt.filter (fun c => !(c == '-'))).length = 8 := by
  intro acc l
  induction l generalizing acc with
  | nil =>
    intro sec dt t h
    rw [sectionLoop] at h
    rcases Option.map_eq_some'.mp h with ⟨r, hm, he⟩
    obtain ⟨r1, r2⟩ := r
    have h2 : r1 = dt := ((Prod.ext_iff.mp (Prod.ext_iff.mp he).2).1 :
      r1 = dt)
    exact h2 ▸ matchDateSuffix_shape hm
  | cons c rest ih =>
    intro sec dt t h
    rw [sectionLoop] at h
    cases hm : matchDateSuffix (dropSeps (c :: rest)) with
    | some r =>
      rw [hm] at h
      simp only [] at h
      obtain ⟨r1, r2⟩ := r
      simp only [Option.some.injEq, Prod.mk.injEq] at h
      obtain ⟨-, h2, -⟩ := h
      exact h2 ▸ matchDateSuffix_shape hm
    | none =>
      rw [hm] at h
      simp only [] at h
      by_cases hd : isDigitC c = true
      · rw [if_pos hd] at h
        exact Option.noConfusion h
      · rw [if_neg hd] at h
        exact ih (c :: acc) sec dt t h

theorem sectionStart_shape {l sec dt t : List Char}
    (h : sectionStart l = some (sec, dt, t)) :
    (dt.filter (fun c => !(c == '-'))).length = 6 ∨
      (dt.filter (fun c => !(c == '-'))).length = 8 := by
  cases l with
  | nil => exact Option.noConfusion h
  | cons c rest =>
    rw [sectionStart.eq_def] at h
    simp only [] at h
    by_cases hd : isDigitC c = true
    · rw [if_pos hd] at h
      exact Option.noConfusion h
    · rw [if_neg hd] at h
      exact sectionLoop_shape [c] rest sec dt t h

theorem afterPages_shape : ∀ (l sec dt t : List Char),
    afterPages l = some (sec, dt, t) →
    (dt.filter (fun c => !(c == '-'))).length = 6 ∨
      (dt.filter (fun c => !(c == '-'))).length = 8 := by
  intro l
  induction l using afterPages.induct with
  | case1 =>
    intro sec dt t h
    exact Option.noConfusion h
  | case2 c cs hs r hr ih =>
    intro sec dt t h
    rw [afterPages] at h
    rw [if_pos hs, hr] at h
    simp only [] at h
    obtain ⟨r1, r2, r3⟩ := r
    simp only [Option.some.injEq, Prod.mk.injEq] at h
    obtain ⟨-, h2, -⟩ := h
    exact h2 ▸ ih r1 r2 r3 hr
  | case3 c cs hs hn ih =>
    intro sec dt t h
    rw [afterPages] at h
    rw [if_pos hs, hn] at h
    simp only [] at h
    exact sectionStart_shape h
  | case4 c cs hs =>
    intro sec dt t h
    rw [afterPages] at h
    rw [if_neg hs] at h
    exact sectionStart_shape h

theorem parseAfterPages_shape {pfx fp : List Char}
    {sp : Option (List Char)} {l : List Char} {r : RawParse}
    (h : parseAfterPages pfx fp sp l = some r) :
    (r.dateTok.filter (fun c => !(c == '-'))).length = 6 ∨
      (r.dateTok.filter (fun c => !(c == '-'))).length = 8 := by
  rcases Option.map_eq_some'.mp h with ⟨x, hx, hfx⟩
  obtain ⟨s, dd, tt⟩ := x
  subst hfx
  exact afterPages_shape l s dd tt hx

theorem parseAfterPages_pfx {pfx fp : List Char}
    {sp : Option (List Char)} {l : List Char} {r : RawParse}
    (h : parseAfterPages pfx fp sp l = some r) : r.pfx = pfx := by
  rcases Option.map_eq_some'.mp h with ⟨x, _, hfx⟩
  subst hfx
  rfl

theorem parseFromDigits_shape {pfx l1 : List Char} {r : RawParse}
    (h : parseFromDigits pfx l1 = some r) :
    ((r.dateTok.filter (fun c => !(c == '-'))).length = 6 ∨
      (r.dateTok.filter (fun c => !(c == '-'))).length = 8) ∧
    r.pfx = pfx := by
  rw [parseFromDigits] at h
  simp only [] at h
  by_cases he : (takeDigits l1).1.isEmpty = true
  · rw [if_pos he] at h
    exact Option.noConfusion h
  · rw [if_neg he] at h
    cases hm : (takeDigits l1).2 with
    | nil =>
      rw [hm] at h
      simp only [] at h
      exact ⟨parseAfterPages_shape h, parseAfterPages_pfx h⟩
    | cons c0 l3 =>
      rw [hm] at h
      simp only [] at h
      by_cases hc0 : c0 = '-'
      · rw [if_pos hc0] at h
        by_cases hq : (takeDigits l3).1.isEmpty = true
        · rw [if_pos hq] at h
          exact ⟨parseAfterPages_shape h, parseAfterPages_pfx h⟩
        · rw [if_neg hq] at h
          cases hp : parseAfterPages pfx (takeDigits l1).1
              (some (takeDigits l3).1) (takeDigits l3).2 with
          | some r' =>
            rw [hp] at h
            simp only [] at h
            cases h
            exact ⟨parseAfterPages_shape hp, parseAfterPages_pfx hp⟩
          | none =>
            rw [hp] at h
            simp only [] at h
            exact ⟨parseAfterPages_shape h, parseAfterPages_pfx h⟩
      · rw [if_neg hc0] at h
        exact ⟨parseAfterPages_shape h, parseAfterPages_pfx h⟩

theorem parseFront_shape {l : List Char} {r : RawParse}
    (h : parseFront l = some r) :
    ((r.dateTok.filter (fun c => !(c == '-'))).length = 6 ∨
      (r.dateTok.filter (fun c => !(c == '-'))).length = 8) ∧
    (r.pfx = [] ∨ ∃ c, r.pfx = [c] ∧ isLetterC c = true) := by
  cases l with
  | nil => exact Option.noConfusion h
  | cons c rest =>
    rw [parseFront] at h
    by_cases hl : isLetterC c = true
    · rw [if_pos hl] at h
      have hp := parseFromDigits_shape h
      exact ⟨hp.1, Or.inr ⟨c, hp.2, hl⟩⟩
    · rw [if_neg hl] at h
      have hp := parseFromDigits_shape h
      exact ⟨hp.1, Or.inl hp.2⟩

theorem parsePageName_shape {s : String} {r : RawParse}
    (h : parsePageName s = some r) :
    ((r.dateTok.filter (fun c => !(c == '-'))).length = 6 ∨
      (r.dateTok.filter (fun c => !(c == '-'))).length = 8) ∧
    (r.pfx = [] ∨ ∃ c, r.pfx = [c] ∧ isLetterC c = true) :=
  parseFront_shape h

/-! ## Characterizing edition resolution -/

/-- Proof-side helper: the first store whose root and candidate both
exist, scanning in order. -/
def searchBoth (fs : String → Bool) (d : PDate) :
    List EditionStore → Option String
  | [] => none
  | st :: rest =>
    if fs st.root && fs (candidate st d) then some (candidate st d)
    else searchBoth fs d rest

theorem editionSearch_err (fs : String → Bool) (d : PDate) :
    ∀ (L : List EditionStore) (e : EditionError),
    editionSearch fs d L = Except.error e →
    e = EditionError.noEdition (noEditionMsg d) ∧
      ∀ st ∈ L, fs (candidate st d) = false := by
  intro L
  induction L with
  | nil =>
    intro e h
    rw [editionSearch] at h
    cases h
    exact ⟨rfl, by simp⟩
  | cons st rest ih =>
    intro e h
    rw [editionSearch] at h
    by_cases hc : fs (candidate st d) = true
    · rw [if_pos hc] at h
      exact Except.noConfusion h
    · rw [if_neg hc] at h
      rcases ih e h with ⟨he, hall⟩
      refine ⟨he, fun st2 hst2 => ?_⟩
      rcases List.mem_cons.mp hst2 with rfl | hst2
      · exact Bool.not_eq_true _ ▸ hc
      · exact hall st2 hst2

theorem editionSearch_filter_ok (fs : String → Bool) (d : PDate)
    (c : String) : ∀ L : List EditionStore,
    (editionSearch fs d (L.filter (fun st => fs st.root)) = Except.ok c ↔
      searchBoth fs d L = some c) := by
  intro L
  induction L with
  | nil => simp [editionSearch, searchBoth]
  | cons st rest ih =>
    by_cases hr : fs st.root = true
    · have hf : List.filter (fun st => fs st.root) (st :: rest) =
          st :: List.filter (fun st => fs st.root) rest := by
        simp [List.filter_cons, hr]
      rw [hf, searchBoth, editionSearch]
      by_cases hc : fs (candidate st d) = true
      · rw [if_pos hc, if_pos (by rw [hr, hc]; rfl)]
        constructor
        · intro h
          cases h
          rfl
        · intro h
          cases h
          rfl
      · rw [if_neg hc, if_neg (by intro habs; rw [Bool.and_eq_true] at habs; exact hc habs.2)]
        exact ih
    · rw [Bool.not_eq_true] at hr
      have hf : List.filter (fun st => fs st.root) (st :: rest) =
          List.filter (fun st => fs st.root) rest := by
        simp [List.filter_cons, hr]
      rw [hf, searchBoth, if_neg (by rw [hr]; simp)]
      exact ih

theorem editionSearch_filter_err (fs : String → Bool) (d : PDate) :
    ∀ L : List EditionStore,
    (editionSearch fs d (L.filter (fun st => fs st.root)) =
        Except.error (EditionError.noEdition (noEditionMsg d)) ↔
      searchBoth fs d L = none) := by
  intro L
  induction L with
  | nil => simp [editionSearch, searchBoth]
  | cons st rest ih =>
    by_cases hr : fs st.root = true
    · have hf : List.filter (fun st => fs st.root) (st :: rest) =
          st :: List.filter (fun st => fs st.root) rest := by
        simp [List.filter_cons, hr]
      rw [hf, searchBoth, editionSearch]
      by_cases hc : fs (candidate st d) = true
      · rw [if_pos hc, if_pos (by rw [hr, hc]; rfl)]
        constructor
        · intro h
          exact Except.noConfusion h
        · intro h
          exact Option.noConfusion h
      · rw [if_neg hc, if_neg (by intro habs; rw [Bool.and_eq_true] at habs; exact hc habs.2)]
        exact ih
    · rw [Bool.not_eq_true] at hr
      have hf : List.filter (fun st => fs st.root) (st :: rest) =
          List.filter (fun st => fs st.root) rest := by
        simp [List.filter_cons, hr]
      rw [hf, searchBoth, if_neg (by rw [hr]; simp)]
      exact ih

theorem searchBoth_some_iff (fs : String → Bool) (d : PDate)
    (c : String) : ∀ L : List EditionStore,
    (searchBoth fs d L = some c ↔
      ∃ pre st post, L = pre ++ st :: post ∧ fs st.root = true ∧
        fs (candidate st d) = true ∧ c = candidate st d ∧
        ∀ st2 ∈ pre,
          ¬(fs st2.root = true ∧ fs (candidate st2 d) = true)) := by
  intro L
  induction L with
  | nil =>
    rw [searchBoth]
    constructor
    · intro h
      exact Option.noConfusion h
    · rintro ⟨pre, st, post, habs, -⟩
      exact absurd habs.symm (List.append_ne_nil_of_right_ne_nil pre
        (List.cons_ne_nil st post))
  | cons st0 rest ih =>
    rw [searchBoth]
    by_cases hb : (fs st0.root && fs (candidate st0 d)) = true
    · rw [if_pos hb]
      rw [Bool.and_eq_true] at hb
      constructor
      · intro h
        cases h
        exact ⟨[], st0, rest, rfl, hb.1, hb.2, rfl, by simp⟩
      · rintro ⟨pre, st, post, heq, hroot, hcand, hc, hpre⟩
        cases pre with
        | nil =>
          simp only [List.nil_append, List.cons.injEq] at heq
          rw [hc, heq.1]
        | cons p0 pre2 =>
          simp only [List.cons_append, List.cons.injEq] at heq
          exact absurd ⟨heq.1 ▸ hb.1, heq.1 ▸ hb.2⟩ (hpre p0 (List.mem_cons_self p0 pre2))
    · rw [if_neg hb]
      rw [ih]
      constructor
      · rintro ⟨pre, st, post, heq, hroot, hcand, hc, hpre⟩
        refine ⟨st0 :: pre, st, post, by rw [heq, List.cons_append],
          hroot, hcand, hc, fun st2 hst2 => ?_⟩
        rcases List.mem_cons.mp hst2 with rfl | hst2
        · intro habs
          exact hb (by rw [habs.1, habs.2]; rfl)
        · exact hpre st2 hst2
      · rintro ⟨pre, st, post, heq, hroot, hcand, hc, hpre⟩
        cases pre with
        | nil =>
          simp only [List.nil_append, List.cons.injEq] at heq
          obtain ⟨h1, h2⟩ := heq
          subst h1
          exact absurd (by rw [hroot, hcand]; rfl :
            (fs st0.root && fs (candidate st0 d)) = true) hb
        | cons p0 pre2 =>
          simp only [List.cons_append, List.cons.injEq] at heq
          exact ⟨pre2, st, post, heq.2, hroot, hcand, hc,
            fun st2 hst2 => hpre st2 (heq.1 ▸ List.mem_cons_of_mem p0 hst2)⟩

theorem searchBoth_none_iff (fs : String → Bool) (d : PDate) :
    ∀ L : List EditionStore,
    (searchBoth fs d L = none ↔
      ∀ st ∈ L, ¬(fs st.root = true ∧ fs (candidate st d) = true)) := by
  intro L
  induction L with
  | nil => simp [searchBoth]
  | cons st0 rest ih =>
    rw [searchBoth]
    by_cases hb : (fs st0.root && fs (candidate st0 d)) = true
    · rw [if_pos hb]
      rw [Bool.and_eq_true] at hb
      constructor
      · intro h
        exact Option.noConfusion h
      · intro h
        exact absurd hb (h st0 (List.mem_cons_self st0 rest))
    · rw [if_neg hb]
      rw [ih]
      constructor
      · intro h st2 hst2
        rcases List.mem_cons.mp hst2 with rfl | hst2
        · intro habs
          exact hb (by rw [habs.1, habs.2]; rfl)
        · exact h st2 hst2
      · intro h st2 hst2
        exact h st2 (List.mem_cons_of_mem st0 hst2)

theorem edition_dir_over_ok (L : List EditionStore) (fs : String → Bool)
    (d : PDate) (c : String) :
    edition_dir_over L fs d = Except.ok c ↔
      editionSearch fs d (L.filter (fun st => fs st.root)) =
        Except.ok c := by
  unfold edition_dir_over fetchStores
  by_cases he : (L.filter (fun st => fs st.root)).isEmpty = true
  · rw [if_pos he]
    rw [List.isEmpty_iff] at he
    rw [he]
    simp only []
    constructor
    · intro h
      exact Except.noConfusion h
    · intro h
      rw [editionSearch] at h
      exact Except.noConfusion h
  · rw [if_neg he]

theorem edition_dir_over_noStores (L : List EditionStore)
    (fs : String → Bool) (d : PDate) :
    edition_dir_over L fs d =
        Except.error (EditionError.noEditionStores noStoresMsg) ↔
      ∀ st ∈ L, fs st.root = false := by
  unfold edition_dir_over fetchStores
  by_cases he : (L.filter (fun st => fs st.root)).isEmpty = true
  · rw [if_pos he]
    simp only []
    rw [List.isEmpty_iff] at he
    constructor
    · intro _ st hst
      have hnot := List.filter_eq_nil_iff.mp he st hst
      rw [Bool.not_eq_true] at hnot
      exact hnot
    · intro _
      trivial
  · rw [if_neg he]
    constructor
    · intro h
      rcases editionSearch_err fs d _ _ h with ⟨habs, -⟩
      exact absurd habs (fun hh => EditionError.noConfusion hh)
    · intro hall
      exfalso
      have hne : L.filter (fun st => fs st.root) ≠ [] := by
        intro habs
        exact he (by rw [habs]; rfl)
      rcases List.exists_mem_of_ne_nil _ hne with ⟨st, hst⟩
      rcases List.mem_filter.mp hst with ⟨hmem, hroot⟩
      rw [hall st hmem] at hroot
      exact Bool.noConfusion hroot

theorem edition_dir_over_noEdition (L : List EditionStore)
    (fs : String → Bool) (d : PDate) :
    edition_dir_over L fs d =
        Except.error (EditionError.noEdition (noEditionMsg d)) ↔
      ((∃ st ∈ L, fs st.root = true) ∧
        ∀ st ∈ L, ¬(fs st.root = true ∧ fs (candidate st d) = true)) := by
  unfold edition_dir_over fetchStores
  by_cases he : (L.filter (fun st => fs st.root)).isEmpty = true
  · rw [if_pos he]
    simp only []
    rw [List.isEmpty_iff] at he
    constructor
    · intro h
      exfalso
      injection h with h2
      exact EditionError.noConfusion h2
    · rintro ⟨⟨st, hst, hroot⟩, -⟩
      exfalso
      exact (List.filter_eq_nil_iff.mp he st hst) hroot
  · rw [if_neg he]
    rw [editionSearch_filter_err, searchBoth_none_iff]
    have hsome : ∃ st ∈ L, fs st.root = true := by
      have hne : L.filter (fun st => fs st.root) ≠ [] := by
        intro habs
        exact he (by rw [habs]; rfl)
      rcases List.exists_mem_of_ne_nil _ hne with ⟨st, hst⟩
      rcases List.mem_filter.mp hst with ⟨hmem, hroot⟩
      exact ⟨st, hmem, hroot⟩
    constructor
    · intro h
      exact ⟨hsome, h⟩
    · exact fun h => h.2

/-! ## Inverting Page construction -/

theorem mkPage_inv {p : MPath} {page : Page}
    (h : mkPage p = Except.ok page) :
    ∃ r : RawParse, parsePageName p.name = some r ∧
      page.pfx = String.mk r.pfx := by
  unfold mkPage at h
  cases hp : parsePageName p.name with
  | none =>
    rw [hp] at h
    exact Except.noConfusion h
  | some r =>
    rw [hp] at h
    simp only [] at h
    cases hs : strptimeDayMonthYear (r.dateTok.filter (fun c => !(c == '-'))) with
    | error e =>
      rw [hs] at h
      exact Except.noConfusion h
    | ok dd =>
      rw [hs] at h
      simp only [] at h
      cases h
      exact ⟨r, rfl, rfl⟩

/-! ## Characterizing the date filter -/

theorem filter_pages_multi {pages : List Page} {d : PDate}
    (hne : ¬((distinctDates pages).length = 1)) (p : Page) :
    p ∈ filter_pages_for_date pages d ↔ p ∈ pages ∧ p.date = d := by
  rw [filter_pages_for_date, if_neg hne]
  simp only []
  rw [mem_pySorted, List.mem_filter, mem_pySet]
  constructor
  · rintro ⟨hp, hcond⟩
    refine ⟨hp, ?_⟩
    by_contra hdd
    have hpu : p ∈ pySet (pages.filter (fun q => !(decide (q.date = d)))) := by
      rw [mem_pySet, List.mem_filter]
      exact ⟨hp, by simp [hdd]⟩
    have hany : (pySet (pages.filter (fun q => !(decide (q.date = d))))).any
        (fun q => decide (hashInput q = hashInput p)) = true :=
      List.any_eq_true.mpr ⟨p, hpu, by simp⟩
    rw [hany] at hcond
    exact Bool.noConfusion hcond
  · rintro ⟨hp, hdd⟩
    refine ⟨hp, ?_⟩
    have hnone : (pySet (pages.filter (fun q => !(decide (q.date = d))))).any
        (fun q => decide (hashInput q = hashInput p)) = false := by
      by_contra habs
      rw [Bool.not_eq_false] at habs
      rcases List.any_eq_true.mp habs with ⟨q, hq, hqp⟩
      have hq2 : q = p := hashInput_inj (of_decide_eq_true hqp)
      subst hq2
      rw [mem_pySet, List.mem_filter] at hq
      rcases hq with ⟨-, hq3⟩
      simp [hdd] at hq3
    rw [hnone]
    rfl

theorem filter_pages_multi_sorted {pages : List Page} {d : PDate}
    (hne : ¬((distinctDates pages).length = 1)) :
    (filter_pages_for_date pages d).Pairwise
      (fun a b => pageLt b a = false) := by
  rw [filter_pages_for_date, if_neg hne]
  exact pairwise_pySorted _

/-! ## Concrete sample values used by witnesses and counterexamples -/

/-- The Page of `/a/1_Front_040516.indd`. -/
def pageFront : Page :=
  ⟨⟨"/a", "1_Front_040516.indd"⟩, [1], ⟨2016, 5, 4⟩, "", "Front", "indd"⟩

/-- The same filename parsed from a different directory. -/
def pageFrontB : Page :=
  ⟨⟨"/b", "1_Front_040516.indd"⟩, [1], ⟨2016, 5, 4⟩, "", "Front", "indd"⟩

/-- The same page with the section spelled in lower case. -/
def pageFrontLower : Page :=
  ⟨⟨"/c", "1_front_040516.indd"⟩, [1], ⟨2016, 5, 4⟩, "", "front", "indd"⟩

/-- A page of a different edition date. -/
def pageOld : Page :=
  ⟨⟨"/a", "1_Front_311250.pdf"⟩, [1], ⟨1950, 12, 31⟩, "", "Front", "pdf"⟩

/-- The Page of `W4_Back_240314.indd`. -/
def pageW : Page :=
  ⟨⟨"", "W4_Back_240314.indd"⟩, [4], ⟨2014, 3, 24⟩, "W", "Back", "indd"⟩

/-- The raw captures of `1_Front_040516.indd`. -/
def rawFront : RawParse :=
  ⟨[], ['1'], none, ['F', 'r', 'o', 'n', 't'],
    ['0', '4', '0', '5', '1', '6'], ['i', 'n', 'd', 'd']⟩

/-! ## The claims -/

theorem ms_marker_toList (X : String) :
    ("MS_" ++ X).toList = 'M' :: 'S' :: '_' :: X.toList := by
  show ("MS_" ++ X).data = 'M' :: 'S' :: '_' :: X.data
  rw [String.data_append]
  rfl

/-- Claim C1 (counterexample to the claim as stated): parsing the valid
filename `1_Front_040516.indd` and formatting it with `external_name`
yields `MS_2016_05_04_001.indd`, and re-parsing that output with the
same grammar FAILS, because the external name starts with the
two-letter marker `MS` while the grammar admits at most one leading
prefix letter before the page number (and the external name contains no
section).  Page construction on the external name raises the
InvalidFilename ValueError. -/
theorem claim_C1_counterexample :
    (mkPage ⟨"", "1_Front_040516.indd"⟩).map external_name =
      Except.ok "MS_2016_05_04_001.indd" ∧
    parsePageName "MS_2016_05_04_001.indd" = none ∧
    mkPage ⟨"", "MS_2016_05_04_001.indd"⟩ =
      Except.error "MS_2016_05_04_001.indd is an invalid filename" :=
  ⟨rfl, rfl, rfl⟩

/-- Claim C1 (amended): for every Page, re-parsing the output of
`external_name()` fails: every external name starts with the `MS`
marker, two letters that the grammar cannot consume, so the grammar
rejects it and Page construction on it raises InvalidFilename. -/
theorem claim_C1 : ∀ p : Page,
    parsePageName (external_name p) = none ∧
    ∀ dir : String, mkPage ⟨dir, external_name p⟩ =
      Except.error (external_name p ++ " is an invalid filename") := by
  intro p
  have hnone : parsePageName (external_name p) = none := by
    obtain ⟨rest, hr⟩ : ∃ rest,
        (external_name p).toList = 'M' :: 'S' :: '_' :: rest := by
      simp only [external_name]
      by_cases hp : Page.pfx p = ""
      · rw [if_pos hp]
        simp only [String.append_assoc]
        exact ⟨_, ms_marker_toList _⟩
      · rw [if_neg hp]
        simp only [String.append_assoc]
        exact ⟨_, ms_marker_toList _⟩
    unfold parsePageName
    rw [hr]
    rfl
  refine ⟨hnone, fun dir => ?_⟩
  unfold mkPage
  have h2 : parsePageName (MPath.mk dir (external_name p)).name = none :=
    hnone
  rw [h2]

/-- Claim C1 witness: the amended claim applied to a concrete Page. -/
theorem claim_C1_witness :
    parsePageName (external_name pageFront) = none :=
  (claim_C1 pageFront).1

/-- Claim C2: Page equality is an equivalence relation computed from the
five-component comparison key (date, type, prefix, pages, section
lower-cased), ignoring the path and the section casing; the ordering
operators are the strict total order of the key tuples, consistent
with equality, and the non-strict forms are literally `lt or eq` and
`gt or eq`. -/
theorem claim_C2 :
    (∀ p : Page, pageEq p p = true) ∧
    (∀ p q : Page, pageEq p q = true → pageEq q p = true) ∧
    (∀ p q r : Page, pageEq p q = true → pageEq q r = true →
      pageEq p r = true) ∧
    (∀ p q : Page, pageEq p q = true ↔
      (p.date = q.date ∧ p.type = q.type ∧ Page.pfx p = Page.pfx q ∧
        p.pages = q.pages ∧ lowerStr p.sect = lowerStr q.sect)) ∧
    (∀ (p : Page) (pa : MPath), pageEq p { p with path := pa } = true) ∧
    (∀ p : Page, pageLt p p = false) ∧
    (∀ p q : Page, pageLt p q = true → pageLt q p = false) ∧
    (∀ p q r : Page, pageLt p q = true → pageLt q r = true →
      pageLt p r = true) ∧
    (∀ p q : Page,
      pageLt p q = true ∨ pageEq p q = true ∨ pageGt p q = true) ∧
    (∀ p q : Page, pageGt p q = true ↔ pageLt q p = true) ∧
    (∀ p q : Page, pageLe p q = true ↔
      (pageLt p q = true ∨ pageEq p q = true)) ∧
    (∀ p q : Page, pageGe p q = true ↔
      (pageGt p q = true ∨ pageEq p q = true)) ∧
    (∀ p q : Page, ¬(pageLt p q = true ∧ pageEq p q = true)) ∧
    (∀ p q : Page, ¬(pageLt p q = true ∧ pageGt p q = true)) := by
  refine ⟨fun p => ?_, fun p q h => ?_, fun p q r h1 h2 => ?_,
    fun p q => ?_, fun p pa => ?_, fun p => ?_,
    fun p q h => pageLt_asymm h, fun p q r h1 h2 => ?_, fun p q => ?_,
    fun p q => ?_, fun p q => ?_, fun p q => ?_,
    fun p q => ?_, fun p q => ?_⟩
  · rw [pageEq_iff]
  · rw [pageEq_iff] at h ⊢
    exact h.symm
  · rw [pageEq_iff] at h1 h2 ⊢
    exact h1.trans h2
  · rw [pageEq_iff]
    unfold comparison_keys
    simp [Prod.ext_iff]
  · rw [pageEq_iff]
    rfl
  · rw [← Bool.not_eq_true, pageLt_iff,
      (lawful_cmpKey.eq_iff _ _).mpr rfl]
    simp
  · rw [pageLt_iff] at h1 h2 ⊢
    exact lawful_cmpKey.lt_trans _ _ _ h1 h2
  · cases hc : cmpKey (comparison_keys p) (comparison_keys q) with
    | lt => exact Or.inl ((pageLt_iff p q).mpr hc)
    | eq =>
      exact Or.inr (Or.inl
        ((pageEq_iff p q).mpr ((lawful_cmpKey.eq_iff _ _).mp hc)))
    | gt => exact Or.inr (Or.inr ((pageGt_iff p q).mpr hc))
  · rw [pageGt_iff, pageLt_iff]
    exact (lawful_cmpKey.swap _ _).symm
  · simp [pageLe]
  · simp [pageGe]
  · rintro ⟨h1, h2⟩
    rw [pageLt_iff] at h1
    rw [pageEq_iff] at h2
    rw [(lawful_cmpKey.eq_iff _ _).mpr h2] at h1
    exact Ordering.noConfusion h1
  · rintro ⟨h1, h2⟩
    rw [pageLt_iff] at h1
    rw [pageGt_iff] at h2
    rw [h1] at h2
    exact Ordering.noConfusion h2

/-- Claim C2 witness: transitivity of equality applied to three
concrete Pages that differ in path and section casing. -/
theorem claim_C2_witness : pageEq pageFront pageFrontLower = true :=
  claim_C2.2.2.1 pageFront pageFrontB pageFrontLower (by decide)
    (by decide)

/-- Claim C3: a date token whose hyphen-stripped digit count is 5 or 7
is never accepted: every successful match carries a token of 6 or 8
digits, so no Page construction ever succeeds on such a filename; in
particular `11_Arts_26314.indd` is rejected with the InvalidFilename
ValueError. -/
theorem claim_C3 :
    (∀ (s : String) (r : RawParse), parsePageName s = some r →
      ¬((r.dateTok.filter (fun c => !(c == '-'))).length = 5 ∨
        (r.dateTok.filter (fun c => !(c == '-'))).length = 7)) ∧
    parsePageName "11_Arts_26314.indd" = none ∧
    mkPage ⟨"", "11_Arts_26314.indd"⟩ =
      Except.error "11_Arts_26314.indd is an invalid filename" ∧
    parsePageName "16-17_Arts_14115.indd" = none ∧
    parsePageName "16-17_Arts_21115.indd" = none ∧
    parsePageName "16-17_Arts_28115.indd" = none ∧
    parsePageName "1_Front_0400516.indd" = none := by
  refine ⟨fun s r h => ?_, rfl, rfl, rfl, rfl, rfl, rfl⟩
  rcases (parsePageName_shape h).1 with h6 | h8
  · omega
  · omega

/-- Claim C3 witness: the universal part applied to the concrete parse
of `1_Front_040516.indd`. -/
theorem claim_C3_witness :
    ¬((rawFront.dateTok.filter (fun c => !(c == '-'))).length = 5 ∨
      (rawFront.dateTok.filter (fun c => !(c == '-'))).length = 7) :=
  claim_C3.1 "1_Front_040516.indd" rawFront rfl

/-- Claim C4: `external_name` always produces
`MS(_prefix)_YYYY_MM_DD_nnn(-nnn).kind`: the prefix segment and its
underscore are present exactly when the prefix is non-empty (no double
underscore), the page numbers are zero-padded to three digits and
joined with a hyphen when there are two, and the extension is the
stored lower-cased kind; the operation is total, in particular on
two-page entities.  The scenario from the spec evaluates as stated. -/
theorem claim_C4 :
    (∀ p : Page, external_name p =
      (if Page.pfx p = "" then "MS_"
        else "MS_" ++ Page.pfx p ++ "_") ++
      fmtYear p.date.year ++ "_" ++ pad2 p.date.month ++ "_" ++
      pad2 p.date.day ++ "_" ++
      String.intercalate "-" (p.pages.map pad3) ++ "." ++ p.type) ∧
    (∀ a b : Nat, String.intercalate "-" ([a, b].map pad3) =
      pad3 a ++ "-" ++ pad3 b) ∧
    (mkPage ⟨"", "1_Front_040516.indd"⟩).map external_name =
      Except.ok "MS_2016_05_04_001.indd" ∧
    (mkPage ⟨"", "2-3_Home_040516.indd"⟩).map external_name =
      Except.ok "MS_2016_05_04_002-003.indd" ∧
    (mkPage ⟨"", "4-5_advert_Home_280414.indd"⟩).map external_name =
      Except.ok "MS_2014_04_28_004-005.indd" ∧
    (mkPage ⟨"", "W4_Back_240314.indd"⟩).map external_name =
      Except.ok "MS_W_2014_03_24_004.indd" ∧
    (mkPage ⟨"", "1_Front_040516.INDD"⟩).map external_name =
      Except.ok "MS_2016_05_04_001.indd" := by
  refine ⟨fun p => ?_, fun a b => rfl, rfl, rfl, rfl, rfl, rfl⟩
  simp only [external_name]
  by_cases hp : Page.pfx p = ""
  · rw [if_pos hp, if_pos hp]
    simp [String.append_assoc]
  · rw [if_neg hp, if_neg hp]
    simp [String.append_assoc]

/-- Claim C4 witness: the template equation applied to a concrete
two-page Page. -/
theorem claim_C4_witness :
    external_name pageW =
      (if Page.pfx pageW = "" then "MS_"
        else "MS_" ++ Page.pfx pageW ++ "_") ++
      fmtYear pageW.date.year ++ "_" ++ pad2 pageW.date.month ++ "_" ++
      pad2 pageW.date.day ++ "_" ++
      String.intercalate "-" (pageW.pages.map pad3) ++ "." ++
      pageW.type :=
  claim_C4.1 pageW

/-- Claim C5: `edition_dir` returns exactly the candidate directory of
the first configured store, in EDITION_STORES order, whose root exists
and whose candidate directory for the date exists — every earlier store
either has no root or no candidate directory, even if a later store
also matches. -/
theorem claim_C5 : ∀ (fs : String → Bool) (d : PDate) (c : String),
    edition_dir fs d = Except.ok c ↔
      ∃ pre st post, EDITION_STORES = pre ++ st :: post ∧
        fs st.root = true ∧ fs (candidate st d) = true ∧
        c = candidate st d ∧
        ∀ st2 ∈ pre,
          ¬(fs st2.root = true ∧ fs (candidate st2 d) = true) := by
  intro fs d c
  rw [edition_dir, edition_dir_over_ok, editionSearch_filter_ok,
    searchBoth_some_iff]

/-- Claim C5 witness: with only the fourth store and its candidate
present, resolution returns that candidate. -/
theorem claim_C5_witness :
    edition_dir
      (fun s => s == "/Volumes/Server/Pages"
        || s == "/Volumes/Server/Pages/2017-08-02 Wednesday Aug 2")
      ⟨2017, 8, 2⟩ =
      Except.ok "/Volumes/Server/Pages/2017-08-02 Wednesday Aug 2" :=
  (claim_C5
    (fun s => s == "/Volumes/Server/Pages"
      || s == "/Volumes/Server/Pages/2017-08-02 Wednesday Aug 2")
    ⟨2017, 8, 2⟩
    "/Volumes/Server/Pages/2017-08-02 Wednesday Aug 2").mpr
    ⟨[⟨homeDir ++ "/Server/Pages", currentEditionName⟩,
      ⟨"/Volumes/MS-T4-Archive-2002-2016", archiveEditionName⟩,
      ⟨"/Volumes/MS-T4-Archive-Since-2017", archiveEditionName⟩],
     ⟨"/Volumes/Server/Pages", currentEditionName⟩,
     [⟨"/Volumes/Archive 2002-2016", archiveEditionName⟩,
      ⟨"/Volumes/Archive since 2017", archiveEditionName⟩],
     rfl, by decide, by decide, by decide, by decide⟩

/-- Claim C6: `edition_dir` raises NoEditionStoresError exactly when no
configured store root exists, and NoEditionError (whose message carries
the formatted date) exactly when some root exists but no store has both
its root and its candidate directory for the date; the two error
conditions are distinct constructors. -/
theorem claim_C6 : ∀ (fs : String → Bool) (d : PDate),
    (edition_dir fs d =
        Except.error (EditionError.noEditionStores noStoresMsg) ↔
      ∀ st ∈ EDITION_STORES, fs st.root = false) ∧
    (edition_dir fs d =
        Except.error (EditionError.noEdition (noEditionMsg d)) ↔
      ((∃ st ∈ EDITION_STORES, fs st.root = true) ∧
        ∀ st ∈ EDITION_STORES,
          ¬(fs st.root = true ∧ fs (candidate st d) = true))) ∧
    noEditionMsg d = "Cannot find edition for " ++ fmtYmd d ∧
    (∀ m1 m2 : String,
      EditionError.noEditionStores m1 ≠ EditionError.noEdition m2) := by
  intro fs d
  refine ⟨?_, ?_, rfl, fun m1 m2 h => EditionError.noConfusion h⟩
  · rw [edition_dir, edition_dir_over_noStores]
  · rw [edition_dir, edition_dir_over_noEdition]

/-- Claim C6 witness: with no store roots present, resolution fails
with NoEditionStoresError. -/
theorem claim_C6_witness :
    edition_dir (fun _ => false) ⟨2017, 8, 2⟩ =
      Except.error (EditionError.noEditionStores noStoresMsg) :=
  ((claim_C6 (fun _ => false) ⟨2017, 8, 2⟩).1).mpr (fun _ _ => rfl)

/-- Claim C7: when the parsed Pages carry at most one distinct date the
filter returns its input unchanged; when more than one distinct date is
present it returns exactly the Pages whose date equals the requested
one, sorted by the Page ordering.  The embedded operation is a total
function: no input raises. -/
theorem claim_C7 : ∀ (pages : List Page) (d : PDate),
    ((distinctDates pages).length ≤ 1 →
      filter_pages_for_date pages d = pages) ∧
    (2 ≤ (distinctDates pages).length →
      (∀ p : Page, p ∈ filter_pages_for_date pages d ↔
        (p ∈ pages ∧ p.date = d)) ∧
      (filter_pages_for_date pages d).Pairwise
        (fun a b => pageLt b a = false)) := by
  intro pages d
  constructor
  · intro h1
    by_cases he : (distinctDates pages).length = 1
    · rw [filter_pages_for_date, if_pos he]
    · have h0 : (distinctDates pages).length = 0 := by omega
      have hnil : pages = [] :=
        distinctDates_eq_nil (List.length_eq_zero.mp h0)
      subst hnil
      rfl
  · intro h2
    have hne : ¬((distinctDates pages).length = 1) := by omega
    exact ⟨fun p => filter_pages_multi hne p, filter_pages_multi_sorted hne⟩

/-- Claim C7 witness: the multi-date branch applied to a concrete
two-date input. -/
theorem claim_C7_witness :
    2 ≤ (distinctDates [pageFront, pageOld]).length ∧
    (pageFront ∈ filter_pages_for_date [pageFront, pageOld] ⟨2016, 5, 4⟩ ↔
      (pageFront ∈ [pageFront, pageOld] ∧
        pageFront.date = (⟨2016, 5, 4⟩ : PDate))) :=
  ⟨by decide,
    ((claim_C7 [pageFront, pageOld] ⟨2016, 5, 4⟩).2 (by decide)).1
      pageFront⟩

/-- Claim C8: listing rendered-output files of a directory that does
not exist returns an empty list and reaches no failing operation. -/
theorem claim_C8 : ∀ (fs : Fs) (path : String),
    fs.pathExists path = false →
    directory_pdfs fs path = Except.ok [] := by
  intro fs path h
  rw [directory_pdfs, if_pos h]

/-- Claim C8 witness: a filesystem on which nothing exists. -/
theorem claim_C8_witness :
    directory_pdfs ⟨fun _ => false, fun _ => none⟩ "/no-directory-here" =
      Except.ok [] :=
  claim_C8 ⟨fun _ => false, fun _ => none⟩ "/no-directory-here" rfl

/-- Claim C10: two Pages parsed from the same filename in different
directories compare equal under the comparison key, yet the tuples fed
to `hash` differ because the hash tuple contains the path (and the
raw section); consequently the set-based deduplication inside the
date filter keeps both equal Pages in its result. -/
theorem claim_C10 :
    pageEq pageFront pageFrontB = true ∧
    pageFront ≠ pageFrontB ∧
    hashInput pageFront ≠ hashInput pageFrontB ∧
    pageEq pageFront pageFrontLower = true ∧
    hashInput pageFront ≠ hashInput pageFrontLower ∧
    filter_pages_for_date [pageFront, pageFrontB, pageOld] ⟨2016, 5, 4⟩ =
      [pageFront, pageFrontB] := by
  refine ⟨by decide, by decide, by decide, by decide, by decide, by rfl⟩

/-- Claim C9 (counterexample to the claim as stated): the filename
`a1_Front_040516.indd` is accepted (the IGNORECASE flag makes the
prefix class match either case) and the stored prefix is the lower-case
letter `a`, which is neither empty nor an upper-case letter. -/
theorem claim_C9_counterexample :
    mkPage ⟨"", "a1_Front_040516.indd"⟩ =
      Except.ok ⟨⟨"", "a1_Front_040516.indd"⟩, [1], ⟨2016, 5, 4⟩, "a",
        "Front", "indd"⟩ ∧
    "a" ≠ "" ∧
    (∀ c : Char, "a" = String.mk [c] → ¬('A' ≤ c ∧ c ≤ 'Z')) := by
  refine ⟨rfl, by decide, fun c h => ?_⟩
  have hc : c = 'a' := by
    have hd : ['a'] = [c] := congrArg String.data h
    exact (List.cons.injEq .. ▸ hd).1.symm
  subst hc
  decide

/-- Claim C9 (amended): the prefix of every successfully constructed
Page is either the empty string or a single ASCII letter of either
case, stored exactly as written in the filename. -/
theorem claim_C9 : ∀ (p : MPath) (page : Page),
    mkPage p = Except.ok page →
    page.pfx = "" ∨
      ∃ c : Char, page.pfx = String.mk [c] ∧ isLetterC c = true := by
  intro p page h
  obtain ⟨r, hp, hpfx⟩ := mkPage_inv h
  rcases (parsePageName_shape hp).2 with h0 | ⟨c, hc, hl⟩
  · left
    rw [hpfx, h0]
  · right
    exact ⟨c, by rw [hpfx, hc], hl⟩

/-- Claim C9 witness: the amended claim applied to a Page with a
prefix. -/
theorem claim_C9_witness :
    pageW.pfx = "" ∨
      ∃ c : Char, pageW.pfx = String.mk [c] ∧ isLetterC c = true :=
  claim_C9 ⟨"", "W4_Back_240314.indd"⟩ pageW rfl

end MsUtils
